import Mathlib

/-!
Verification model of scripts/generate-benchmark-graphs.py.

The script extracts benchmark measurements from three loosely structured
text reports with Python regular expressions, normalizes library names,
merges the three per-format mappings and hands the merged table to a
chart renderer.  This file gives a shallow embedding of the extraction
and merge core:

* text is a list of characters (Python str indexes by code point);
* Python dicts become association lists with insert-or-overwrite;
* the three regex patterns are embedded as explicit matchers; each
  pattern only combines character-class repetitions whose neighbouring
  tokens are drawn from disjoint classes, so greedy repetition is exact
  maximal munch, and the two lazy groups are forced as explained at
  their definitions;
* Python float conversion of a matched numeric field becomes an
  Option-valued exact decimal parse (none models ValueError, which the
  script does not catch);
* a missing input file (FileNotFoundError) is modelled by a filesystem
  function returning none for the path.
-/

/-- Keys (library names) and other pieces of text are code-point lists. -/
abbrev Key := List Char

/-- The whitespace characters matched by the backslash-s class of the
patterns, restricted to ASCII (space, tab, newline, carriage return,
vertical tab, form feed). -/
def isWS (c : Char) : Bool :=
  c = ' ' || c = '\t' || c = '\n' || c = '\r' || c.toNat = 11 || c.toNat = 12

/-- The character class of the numeric fields: a digit or a dot. -/
def isDD (c : Char) : Bool := c.isDigit || c = '.'

/-- Python str.strip: drop leading and trailing whitespace. -/
def pstrip (s : List Char) : List Char :=
  ((s.dropWhile isWS).reverse.dropWhile isWS).reverse

/-- Python slicing content[a:b] over code points. -/
def pyslice (s : List Char) (a b : Nat) : List Char := (s.drop a).take (b - a)

/-- Fuel-bounded worker for Python str.replace: leftmost non-overlapping
occurrences of old are replaced by new, scanning left to right. -/
def replaceAllAux (old new : List Char) : Nat → List Char → List Char
  | 0, s => s
  | _ + 1, [] => []
  | fuel + 1, c :: rest =>
    if old.isPrefixOf (c :: rest) then
      new ++ replaceAllAux old new fuel ((c :: rest).drop old.length)
    else
      c :: replaceAllAux old new fuel rest

/-- Python str.replace(old, new) for a non-empty old pattern. -/
def preplace (s old new : List Char) : List Char :=
  replaceAllAux old new (s.length + 1) s

/-- Numeric value of a digit list, most significant digit first. -/
def natOfDigits (l : List Char) : Nat :=
  l.foldl (fun a c => a * 10 + (c.toNat - 48)) 0

/-- Python float() applied to a string drawn from the digit-or-dot class.
The result is the exact decimal value as a rational; none models the
ValueError raised on a field such as "1.2.3" or ".", which the script
does not catch. -/
def parseDecimal (l : List Char) : Option ℚ :=
  if l.count '.' = 0 then
    if l = [] then none else some (mkRat (natOfDigits l) 1)
  else if l.count '.' = 1 then
    let a := l.takeWhile (fun c => c ≠ '.')
    let b := (l.dropWhile (fun c => c ≠ '.')).tail
    if a = [] ∧ b = [] then none
    else some (mkRat (natOfDigits a * 10 ^ b.length + natOfDigits b) (10 ^ b.length))
  else none

/-- One measurement row of the merged table (dataclass BenchmarkResult). -/
structure BenchmarkResult where
  parser : List Char
  language : List Char
  avg_time_ms : ℚ
  throughput_kb_ms : ℚ
deriving DecidableEq

/-- Python dict from library name to measurement list, as an association
list without duplicate keys. -/
abbrev Dict := List (Key × List BenchmarkResult)

/-- Dict lookup (Python d[k] / k in d). -/
def dlookup {α : Type} : List (Key × α) → Key → Option α
  | [], _ => none
  | (ky, v) :: d, k => if ky = k then some v else dlookup d k

/-- Dict assignment d[k] = v: overwrite the value in place if the key is
present, append the new binding otherwise (Python dict semantics). -/
def dinsert {α : Type} : List (Key × α) → Key → α → List (Key × α)
  | [], k, v => [(k, v)]
  | (ky, w) :: d, k, v =>
    if ky = k then (ky, v) :: d else (ky, w) :: dinsert d k v

/-- Dict key list. -/
def dkeys {α : Type} (d : List (Key × α)) : List Key := d.map Prod.fst

/-- Groups of one library-header match: the raw name text and the raw
size text. -/
structure HeaderMatch where
  nameRaw : List Char
  sizeStr : List Char
deriving DecidableEq

/-- Groups of one result-row match: the raw parser-name text, the raw
average-time text and the raw throughput text. -/
structure RowMatch where
  parserRaw : List Char
  timeStr : List Char
  thrStr : List Char
deriving DecidableEq

/-- One-or-more repetition of a character class at position p, taking the
maximal run (exact for the patterns below, whose neighbouring tokens are
from disjoint classes). -/
def munch1 (cls : Char → Bool) (s : List Char) (p : Nat) :
    Option (List Char × Nat) :=
  let run := (s.drop p).takeWhile cls
  if run = [] then none else some (run, p + run.length)

/-- A literal token at position p. -/
def litAt (lit : List Char) (s : List Char) (p : Nat) : Option Nat :=
  if lit.isPrefixOf (s.drop p) then some (p + lit.length) else none

/-- One attempted match of the library-header pattern at position i.
The lazy dot group cannot cross a newline and is followed by a literal
newline, so it is exactly the non-empty remainder of the line; the size
group is a maximal digit-or-dot run followed by the literal " KB". -/
def headerMatchAt (s : List Char) (i : Nat) : Option (HeaderMatch × Nat) :=
  match litAt ("Library: ".toList) s i with
  | none => none
  | some p0 =>
    let name := (s.drop p0).takeWhile (fun c => c ≠ '\n')
    if name = [] then none else
    match litAt ("\nSize: ".toList) s (p0 + name.length) with
    | none => none
    | some p1 =>
      match munch1 isDD s p1 with
      | none => none
      | some (sz, p2) =>
        match litAt (" KB".toList) s p2 with
        | none => none
        | some p3 => some (⟨name, sz⟩, p3)

/-- One numeric pipe column shared by all three row patterns:
whitespace, a pipe, whitespace, then a maximal digit-or-dot run. -/
def pipeNumAt (s : List Char) (p : Nat) : Option (List Char × Nat) := do
  let (_, q1) ← munch1 isWS s p
  let q2 ← litAt ['|'] s q1
  let (_, q3) ← munch1 isWS s q2
  munch1 isDD s q3

/-- One attempted match of the Java result-row pattern at position i:
the literal parser name, then the time and throughput columns. -/
def javaRowAt (s : List Char) (i : Nat) :
    Option ((List Char × List Char) × Nat) := do
  let p0 ← litAt ("Our Java Parser".toList) s i
  let (g1, p1) ← pipeNumAt s p0
  let (g2, p2) ← pipeNumAt s p1
  pure ((g1, g2), p2)

/-- The columns shared by the JavaScript and Rust row patterns after
the parser-name group: the time column, the rank-ratio column ending in
the letter x, and the throughput column. -/
def rustRestAt (s : List Char) (p : Nat) :
    Option ((List Char × List Char) × Nat) := do
  let (g2, q1) ← pipeNumAt s p
  let (_, q2) ← pipeNumAt s q1
  let q3 ← litAt ['x'] s q2
  let (g3, q4) ← pipeNumAt s q3
  pure ((g2, g3), q4)

/-- One attempted match of the JavaScript result-row pattern at
position i: a medal marker, the parser name as a non-whitespace run,
the three columns, then whitespace and the literal "KB/ms". -/
def jsRowAt (s : List Char) (i : Nat) : Option (RowMatch × Nat) := do
  let c ← (s.drop i).head?
  if c = '🥇' ∨ c = '🥈' ∨ c = '🥉' then
    let (_, p1) ← munch1 isWS s (i + 1)
    let (g1, p2) ← munch1 (fun d => ! isWS d) s p1
    let ((g2, g3), p3) ← rustRestAt s p2
    let (_, p4) ← munch1 isWS s p3
    let p5 ← litAt ("KB/ms".toList) s p4
    pure (⟨g1, g2, g3⟩, p5)
  else none

/-- The lazy parser-name group of the Rust row pattern: lengths are
tried shortest first within the current run of non-newline characters
(the dot class cannot cross a newline). -/
def rustTryLen (s : List Char) (g1s : Nat) : Nat → Nat → Option (RowMatch × Nat)
  | _, 0 => none
  | len, fuel + 1 =>
    match rustRestAt s (g1s + len) with
    | some ((g2, g3), e) => some (⟨pyslice s g1s (g1s + len), g2, g3⟩, e)
    | none => rustTryLen s g1s (len + 1) fuel

/-- The greedy whitespace run before the lazy group of the Rust row
pattern: widths are tried longest first (backtracking order of the
regex engine). -/
def rustTryWs (s : List Char) (i1 : Nat) : Nat → Option (RowMatch × Nat)
  | 0 => none
  | w + 1 =>
    let g1s := i1 + (w + 1)
    let lmax := ((s.drop g1s).takeWhile (fun c => c ≠ '\n')).length
    match rustTryLen s g1s 1 lmax with
    | some r => some r
    | none => rustTryWs s i1 w

/-- One attempted match of the Rust result-row pattern at position i:
a medal marker, whitespace, the lazy parser-name group, then the same
columns as the JavaScript pattern but with no "KB/ms" suffix. -/
def rustRowAt (s : List Char) (i : Nat) : Option (RowMatch × Nat) := do
  let c ← (s.drop i).head?
  if c = '🥇' ∨ c = '🥈' ∨ c = '🥉' then
    let wmax := ((s.drop (i + 1)).takeWhile isWS).length
    rustTryWs s (i + 1) wmax
  else none

/-- re.search: the first position at or after p where the matcher
succeeds (fuel-bounded scan). -/
def reFindFrom {α : Type} (m : Nat → Option (α × Nat)) :
    Nat → Nat → Option (Nat × α × Nat)
  | _, 0 => none
  | p, fuel + 1 =>
    match m p with
    | some (a, e) => some (p, a, e)
    | none => reFindFrom m (p + 1) fuel

/-- Worker for re.finditer: repeatedly take the leftmost match and
resume scanning at its end (all patterns here match at least one
character, so the scan position always advances). -/
def reFinditerAux {α : Type} (m : Nat → Option (α × Nat)) (len : Nat) :
    Nat → Nat → List (Nat × α × Nat)
  | _, 0 => []
  | p, fuel + 1 =>
    match reFindFrom m p (len + 1 - p) with
    | none => []
    | some (j, a, e) => (j, a, e) :: reFinditerAux m len (max e (j + 1)) fuel

/-- re.finditer over a text of the given length: the list of
(start, groups, end) for each non-overlapping match, left to right. -/
def reFinditer {α : Type} (m : Nat → Option (α × Nat)) (len : Nat) :
    List (Nat × α × Nat) :=
  reFinditerAux m len 0 (len + 1)

/-- All library-header matches of the input text. -/
def headersOf (content : List Char) : List (Nat × HeaderMatch × Nat) :=
  reFinditer (headerMatchAt content) content.length

/-- The section of each header: the text span from the end of that
header to the start of the next header match, or to the end of the text
for the last one. -/
def sectionsFrom (content : List Char) :
    List (Nat × HeaderMatch × Nat) → List (HeaderMatch × List Char)
  | [] => []
  | [(_, h, e)] => [(h, pyslice content e content.length)]
  | (_, h, e) :: (j, h2, e2) :: rest =>
    (h, pyslice content e j) :: sectionsFrom content ((j, h2, e2) :: rest)

/-- The canonical-name lookup table (normalize_library_name). -/
def normalize_library_name (name : List Char) : List Char :=
  if name = "react.production.min.js".toList then "React".toList
  else if name = "vue.global.prod.js".toList then "Vue 3".toList
  else if name = "react-dom.production.min.js".toList then "React DOM".toList
  else if name = "lodash.js".toList then "Lodash".toList
  else if name = "three.js".toList then "Three.js".toList
  else if name = "typescript.js".toList then "TypeScript Compiler".toList
  else name

/-- Sections keyed by the normalized, stripped library name, as computed
by the JavaScript and Rust extractors. -/
def normSections (content : List Char) : List (Key × List Char) :=
  (sectionsFrom content (headersOf content)).map
    (fun p => (normalize_library_name (pstrip p.1.nameRaw), p.2))

/-- The JavaScript result rows matched inside one section. -/
def jsRowsOf (sec : List Char) : List RowMatch :=
  (reFinditer (jsRowAt sec) sec.length).map (fun t => t.2.1)

/-- The Rust result rows matched inside one section. -/
def rustRowsOf (sec : List Char) : List RowMatch :=
  (reFinditer (rustRowAt sec) sec.length).map (fun t => t.2.1)

/-- The Java result rows matched inside one section.  The claims
describe section-scoped matching for all three extractors; the Java
extractor itself searches the whole remaining text instead, so this
definition is the claim-side reference for comparison. -/
def javaRowsOf (sec : List Char) : List (List Char × List Char) :=
  (reFinditer (javaRowAt sec) sec.length).map (fun t => t.2.1)

/-- Option-valued map over a list: the whole result is none as soon as
one element fails (a float ValueError aborts the whole call). -/
def omapM {α β : Type} (f : α → Option β) : List α → Option (List β)
  | [] => some []
  | x :: xs =>
    match f x, omapM f xs with
    | some y, some ys => some (y :: ys)
    | _, _ => none

/-- One matched JavaScript row turned into a measurement. -/
def jsToResult (rm : RowMatch) : Option BenchmarkResult :=
  match parseDecimal rm.timeStr, parseDecimal rm.thrStr with
  | some t, some tp => some ⟨pstrip rm.parserRaw, "JavaScript".toList, t, tp⟩
  | _, _ => none

/-- The measurement list of one JavaScript section. -/
def jsLibResults (sec : List Char) : Option (List BenchmarkResult) :=
  omapM jsToResult (jsRowsOf sec)

/-- One matched Rust row turned into a measurement; the language
decoration " (Rust)" is stripped from the parser name. -/
def rustToResult (rm : RowMatch) : Option BenchmarkResult :=
  match parseDecimal rm.timeStr, parseDecimal rm.thrStr with
  | some t, some tp =>
    some ⟨preplace (pstrip rm.parserRaw) (" (Rust)".toList) [], "Rust".toList, t, tp⟩
  | _, _ => none

/-- The measurement list of one Rust section. -/
def rustLibResults (sec : List Char) : Option (List BenchmarkResult) :=
  omapM rustToResult (rustRowsOf sec)

/-- The section loop shared by the JavaScript and Rust extractors: for
each section compute its measurement list and store it under the
section key when it is non-empty. -/
def sectionLoop (lib : List Char → Option (List BenchmarkResult)) :
    List (Key × List Char) → Dict → Option Dict
  | [], d => some d
  | (k, sec) :: rest, d =>
    match lib sec with
    | none => none
    | some rs => sectionLoop lib rest (if rs = [] then d else dinsert d k rs)

/-- parse_javascript_results applied to already-read file text. -/
def parse_javascript_text (content : List Char) : Option Dict :=
  sectionLoop jsLibResults (normSections content) []

/-- parse_rust_results applied to already-read file text. -/
def parse_rust_text (content : List Char) : Option Dict :=
  sectionLoop rustLibResults (normSections content) []

/-- re.search of the Java row pattern over the remaining text. -/
def searchJavaRow (rem : List Char) : Option (List Char × List Char) :=
  (reFindFrom (javaRowAt rem) 0 (rem.length + 1)).map (fun t => t.2.1)

/-- The header loop of the Java extractor: the size field is converted
(float can fail), then the first Java row anywhere after the header end
is stored as a singleton list under the stripped, unnormalized name. -/
def javaLoop (content : List Char) :
    List (HeaderMatch × Nat) → Dict → Option Dict
  | [], d => some d
  | (h, e) :: rest, d =>
    match parseDecimal h.sizeStr with
    | none => none
    | some _ =>
      match searchJavaRow (content.drop e) with
      | none => javaLoop content rest d
      | some (ts, ps) =>
        match parseDecimal ts, parseDecimal ps with
        | some t, some tp =>
          javaLoop content rest
            (dinsert d (pstrip h.nameRaw)
              [⟨"Harmonica".toList, "Java".toList, t, tp⟩])
        | _, _ => none

/-- The header matches with their end positions, as iterated by the
Java extractor. -/
def javaHeaders (content : List Char) : List (HeaderMatch × Nat) :=
  (headersOf content).map (fun t => (t.2.1, t.2.2))

/-- parse_java_results applied to already-read file text. -/
def parse_java_text (content : List Char) : Option Dict :=
  javaLoop content (javaHeaders content) []

/-- parse_java_results with the filesystem as a function from path to
optional contents; a missing file returns the empty mapping. -/
def parse_java_results (fs : List Char → Option (List Char))
    (filepath : List Char) : Option Dict :=
  match fs filepath with
  | none => some []
  | some content => parse_java_text content

/-- parse_javascript_results with the filesystem as a function. -/
def parse_javascript_results (fs : List Char → Option (List Char))
    (filepath : List Char) : Option Dict :=
  match fs filepath with
  | none => some []
  | some content => parse_javascript_text content

/-- parse_rust_results with the filesystem as a function. -/
def parse_rust_results (fs : List Char → Option (List Char))
    (filepath : List Char) : Option Dict :=
  match fs filepath with
  | none => some []
  | some content => parse_rust_text content

/-- merge_results: the key set is the union of the three key sets and
each value is the Java list, then the JavaScript list, then the Rust
list.  Python iterates a set here, whose order is unspecified; the
model fixes first-occurrence order, and every property below is stated
through lookups only. -/
def merge_results (java_results js_results rust_results : Dict) : Dict :=
  (List.dedup (dkeys java_results ++ dkeys js_results ++ dkeys rust_results)).map
    (fun lib =>
      (lib,
        ((dlookup java_results lib).getD []) ++
        ((dlookup js_results lib).getD []) ++
        ((dlookup rust_results lib).getD [])))

/-- The fatal report of main when every extractor came back empty. -/
def noResultsMsg : List Char := "Error: No benchmark results found!".toList

/-- The decision of main after the three extractors ran: report failure
and stop before merging when all three mappings are empty, otherwise
merge (lines 480 to 485 of the script). -/
def run_pipeline (java_results js_results rust_results : Dict) :
    Except (List Char) Dict :=
  if java_results = [] ∧ js_results = [] ∧ rust_results = [] then
    Except.error noResultsMsg
  else
    Except.ok (merge_results java_results js_results rust_results)

/-! ### Concrete report texts used as counterexamples and witnesses -/

/-- A Java report with one library section holding two result rows. -/
def cJava1 : List Char :=
  "Library: A\nSize: 1.0 KB\nOur Java Parser | 1.0 | 2.0\nOur Java Parser | 3.0 | 4.0\n".toList

/-- A Java report with two library sections where only the second
section holds a result row. -/
def cJava2 : List Char :=
  "Library: A\nSize: 1.0 KB\nLibrary: B\nSize: 2.0 KB\nOur Java Parser | 1.0 | 2.0\n".toList

/-- A Java report whose library name has a canonical form in the
normalization table. -/
def cJava3 : List Char :=
  "Library: lodash.js\nSize: 1.0 KB\nOur Java Parser | 1.0 | 2.0\n".toList

/-- A report with a library line and a later size line separated by an
intervening line. -/
def cNoImm : List Char :=
  ("Library: Foo\n".toList) ++ ("Note\n".toList) ++ ("Size: 1.0 KB\n".toList)

/-- A JavaScript report with one library and one result row. -/
def exJsText : List Char :=
  "Library: lodash.js\nSize: 1.0 KB\n🥇 Meriyah | 1.5 | 1.00x | 6.7 KB/ms\n".toList

/-- A Rust report with one library and one decorated result row. -/
def exRustText : List Char :=
  "Library: three.js\nSize: 2.0 KB\n🥇 OXC (Rust) | 0.5 | 1.00x | 76.2\n".toList

/-- A Java report with one library and one result row. -/
def exJavaText : List Char :=
  "Library: Foo\nSize: 10.0 KB\nOur Java Parser | 1.5 | 6.7\n".toList

/-- A JavaScript report with two distinct library headers that
normalize to the same canonical name. -/
def cDup : List Char :=
  "Library: lodash.js\nSize: 1.0 KB\n🥇 A1 | 1.0 | 1.00x | 2.0 KB/ms\nLibrary: Lodash\nSize: 1.0 KB\n🥇 B2 | 3.0 | 1.00x | 4.0 KB/ms\n".toList

/-! ### Dictionary lemmas -/

theorem dlookup_dinsert_self {α : Type} (d : List (Key × α)) (k : Key) (v : α) :
    dlookup (dinsert d k v) k = some v := by
  induction d with
  | nil => simp [dinsert, dlookup]
  | cons p d ih =>
    obtain ⟨ky, w⟩ := p
    by_cases h : ky = k <;> simp [dinsert, dlookup, h, ih]

theorem dlookup_dinsert_ne {α : Type} (d : List (Key × α)) (k k2 : Key) (v : α)
    (h : k ≠ k2) : dlookup (dinsert d k v) k2 = dlookup d k2 := by
  induction d with
  | nil => simp [dinsert, dlookup, h]
  | cons p d ih =>
    obtain ⟨ky, w⟩ := p
    by_cases hk : ky = k
    · subst hk
      simp [dinsert, dlookup, h]
    · simp [dinsert, dlookup, hk, ih]

theorem dlookup_dinsert_isSome {α : Type} (d : List (Key × α)) (k k2 : Key) (v : α) :
    (dlookup (dinsert d k v) k2).isSome ↔ k = k2 ∨ (dlookup d k2).isSome := by
  by_cases h : k = k2
  · subst h
    simp [dlookup_dinsert_self]
  · simp [dlookup_dinsert_ne d k k2 v h, h]

theorem dlookup_dinsert_cases {α : Type} (d : List (Key × α)) (k k2 : Key) (v w : α)
    (h : dlookup (dinsert d k v) k2 = some w) : w = v ∨ dlookup d k2 = some w := by
  by_cases hk : k = k2
  · subst hk
    rw [dlookup_dinsert_self] at h
    exact Or.inl (Option.some_injective _ h).symm
  · rw [dlookup_dinsert_ne d k k2 v hk] at h
    exact Or.inr h

theorem mem_dkeys_iff {α : Type} (d : List (Key × α)) (k : Key) :
    k ∈ dkeys d ↔ (dlookup d k).isSome := by
  induction d with
  | nil => simp [dkeys, dlookup]
  | cons p d ih =>
    obtain ⟨ky, v⟩ := p
    have hk : dkeys ((ky, v) :: d) = ky :: dkeys d := rfl
    rw [hk, List.mem_cons, ih]
    by_cases h : ky = k
    · subst h
      simp [dlookup]
    · simp [dlookup, h, Ne.symm h]

/-! ### Lemmas about the Option-valued map -/

theorem omapM_length {α β : Type} (f : α → Option β) (xs : List α) (ys : List β)
    (h : omapM f xs = some ys) : ys.length = xs.length := by
  induction xs generalizing ys with
  | nil => simp [omapM] at h; simp [← h]
  | cons x xs ih =>
    cases hx : f x with
    | none => simp [omapM, hx] at h
    | some y =>
      cases hxs : omapM f xs with
      | none => simp [omapM, hx, hxs] at h
      | some ys2 =>
        simp [omapM, hx, hxs] at h
        subst h
        simp [ih ys2 hxs]

theorem omapM_get {α β : Type} (f : α → Option β) (xs : List α) (ys : List β)
    (h : omapM f xs = some ys) :
    ∀ i (h1 : i < xs.length) (h2 : i < ys.length),
      f (xs.get ⟨i, h1⟩) = some (ys.get ⟨i, h2⟩) := by
  induction xs generalizing ys with
  | nil => intro i h1; simp at h1
  | cons x xs ih =>
    cases hx : f x with
    | none => simp [omapM, hx] at h
    | some y =>
      cases hxs : omapM f xs with
      | none => simp [omapM, hx, hxs] at h
      | some ys2 =>
        simp [omapM, hx, hxs] at h
        subst h
        intro i h1 h2
        cases i with
        | zero => simpa using hx
        | succ j =>
          simp only [List.get]
          exact ih ys2 hxs j (Nat.lt_of_succ_lt_succ h1) (Nat.lt_of_succ_lt_succ h2)

theorem omapM_eq_nil_iff {α β : Type} (f : α → Option β) (xs : List α) (ys : List β)
    (h : omapM f xs = some ys) : ys = [] ↔ xs = [] := by
  cases xs with
  | nil => simp [omapM] at h; simp [← h]
  | cons x xs =>
    constructor
    · intro hy
      subst hy
      have := omapM_length f (x :: xs) [] h
      simp at this
    · intro hx
      exact absurd hx (by simp)

/-! ### Lemmas about the shared section loop -/

theorem sectionLoop_some (lib : List Char → Option (List BenchmarkResult))
    (ss : List (Key × List Char)) (d r : Dict) :
    sectionLoop lib ss d = some r → ∀ p ∈ ss, ∃ rs, lib p.2 = some rs := by
  induction ss generalizing d with
  | nil => intro _ p hp; simp at hp
  | cons q ss ih =>
    obtain ⟨k, sec⟩ := q
    intro hl p hp
    cases hc : lib sec with
    | none => rw [sectionLoop, hc] at hl; exact absurd hl (by simp)
    | some rs =>
      rw [sectionLoop, hc] at hl
      rcases List.mem_cons.mp hp with hq | hq
      · subst hq; exact ⟨rs, hc⟩
      · exact ih _ hl p hq

theorem sectionLoop_lookup_notmem (lib : List Char → Option (List BenchmarkResult))
    (ss : List (Key × List Char)) (d r : Dict) (k : Key) :
    sectionLoop lib ss d = some r → (∀ p ∈ ss, p.1 ≠ k) →
    dlookup r k = dlookup d k := by
  induction ss generalizing d with
  | nil => intro hl _; rw [sectionLoop] at hl; simpa using congrArg (fun o => o.map (fun d2 => dlookup d2 k)) hl |>.symm
  | cons q ss ih =>
    obtain ⟨k0, sec⟩ := q
    intro hl hne
    cases hc : lib sec with
    | none => rw [sectionLoop, hc] at hl; exact absurd hl (by simp)
    | some rs =>
      rw [sectionLoop, hc] at hl
      have hk0 : k0 ≠ k := hne (k0, sec) (List.mem_cons_self _ _)
      have htail := ih _ hl (fun p hp => hne p (List.mem_cons_of_mem _ hp))
      by_cases hrs : rs = []
      · simpa [hrs] using htail
      · rw [htail]
        simp [hrs, dlookup_dinsert_ne _ _ _ _ hk0]

theorem sectionLoop_lookup_of_mem (lib : List Char → Option (List BenchmarkResult))
    (ss : List (Key × List Char)) (d r : Dict) (k : Key) (sec : List Char)
    (rs : List BenchmarkResult) :
    sectionLoop lib ss d = some r → (ss.map Prod.fst).Nodup →
    (k, sec) ∈ ss → lib sec = some rs → rs ≠ [] →
    dlookup r k = some rs := by
  induction ss generalizing d with
  | nil => intro _ _ hp; simp at hp
  | cons q ss ih =>
    obtain ⟨k0, sec0⟩ := q
    intro hl hnd hp hlib hne
    cases hc : lib sec0 with
    | none => rw [sectionLoop, hc] at hl; exact absurd hl (by simp)
    | some rs0 =>
      rw [sectionLoop, hc] at hl
      rcases List.mem_cons.mp hp with hq | hq
      · have hk : k0 = k := congrArg Prod.fst hq.symm
        have hs : sec0 = sec := congrArg Prod.snd hq.symm
        subst hk; subst hs
        have hrs0 : rs0 = rs := by rw [hlib] at hc; exact (Option.some_injective _ hc).symm
        subst hrs0
        rw [List.map_cons, List.nodup_cons] at hnd
        have hnotin : ∀ p ∈ ss, p.1 ≠ k0 := by
          intro p hps hcontra
          have hmem : p.1 ∈ List.map Prod.fst ss := List.mem_map_of_mem Prod.fst hps
          rw [hcontra] at hmem
          exact hnd.1 hmem
        rw [sectionLoop_lookup_notmem lib ss _ r k0 hl hnotin]
        simp [hne, dlookup_dinsert_self]
      · rw [List.map_cons, List.nodup_cons] at hnd
        exact ih _ hl hnd.2 hq hlib hne

theorem sectionLoop_lookup_isSome (lib : List Char → Option (List BenchmarkResult))
    (ss : List (Key × List Char)) (d r : Dict) (k : Key) :
    sectionLoop lib ss d = some r →
    ((dlookup r k).isSome ↔
      (dlookup d k).isSome ∨
      ∃ p, p ∈ ss ∧ p.1 = k ∧ ∃ rs, lib p.2 = some rs ∧ rs ≠ []) := by
  induction ss generalizing d with
  | nil =>
    intro hl
    rw [sectionLoop] at hl
    have : d = r := Option.some_injective _ hl
    subst this
    simp
  | cons q ss ih =>
    obtain ⟨k0, sec0⟩ := q
    intro hl
    cases hc : lib sec0 with
    | none => rw [sectionLoop, hc] at hl; exact absurd hl (by simp)
    | some rs0 =>
      rw [sectionLoop, hc] at hl
      have hl2 : sectionLoop lib ss (if rs0 = [] then d else dinsert d k0 rs0) = some r := hl
      rw [ih _ hl2]
      by_cases hrs : rs0 = []
      · rw [if_pos hrs]
        constructor
        · rintro (hd | ht)
          · exact Or.inl hd
          · exact Or.inr (by
              obtain ⟨p, hp, h1, h2⟩ := ht
              exact ⟨p, List.mem_cons_of_mem _ hp, h1, h2⟩)
        · rintro (hd | ⟨p, hp, h1, rs, h2, h3⟩)
          · exact Or.inl hd
          · rcases List.mem_cons.mp hp with hq | hq
            · subst hq
              rw [hc] at h2
              have : rs0 = rs := (Option.some_injective _ h2)
              exact absurd (this ▸ hrs) h3
            · exact Or.inr ⟨p, hq, h1, rs, h2, h3⟩
      · rw [if_neg hrs, dlookup_dinsert_isSome]
        constructor
        · rintro ((hk | hd) | ht)
          · exact Or.inr ⟨(k0, sec0), List.mem_cons_self _ _, hk, rs0, hc, hrs⟩
          · exact Or.inl hd
          · obtain ⟨p, hp, h1, h2⟩ := ht
            exact Or.inr ⟨p, List.mem_cons_of_mem _ hp, h1, h2⟩
        · rintro (hd | ⟨p, hp, h1, rs, h2, h3⟩)
          · exact Or.inl (Or.inr hd)
          · rcases List.mem_cons.mp hp with hq | hq
            · subst hq
              exact Or.inl (Or.inl h1)
            · exact Or.inr ⟨p, hq, h1, rs, h2, h3⟩

theorem sectionLoop_append (lib : List Char → Option (List BenchmarkResult))
    (xs ys : List (Key × List Char)) (d : Dict) :
    sectionLoop lib (xs ++ ys) d =
      (sectionLoop lib xs d).bind (fun d2 => sectionLoop lib ys d2) := by
  induction xs generalizing d with
  | nil => simp [sectionLoop]
  | cons q xs ih =>
    obtain ⟨k, sec⟩ := q
    cases hc : lib sec with
    | none => simp [sectionLoop, hc]
    | some rs => simp [sectionLoop, hc, ih]

theorem sectionLoop_nonempty (lib : List Char → Option (List BenchmarkResult))
    (ss : List (Key × List Char)) (d r : Dict) :
    sectionLoop lib ss d = some r →
    (∀ k v, dlookup d k = some v → v ≠ []) →
    ∀ k v, dlookup r k = some v → v ≠ [] := by
  induction ss generalizing d with
  | nil =>
    intro hl hd
    rw [sectionLoop] at hl
    have : d = r := Option.some_injective _ hl
    subst this
    exact hd
  | cons q ss ih =>
    obtain ⟨k0, sec0⟩ := q
    intro hl hd
    cases hc : lib sec0 with
    | none => rw [sectionLoop, hc] at hl; exact absurd hl (by simp)
    | some rs0 =>
      rw [sectionLoop, hc] at hl
      by_cases hrs : rs0 = []
      · exact ih _ (by simpa [hrs] using hl) hd
      · refine ih _ (by simpa [hrs] using hl) ?_
        intro k v hv
        rcases dlookup_dinsert_cases d k0 k rs0 v hv with hcase | hcase
        · subst hcase; exact hrs
        · exact hd k v hcase

/-! ### Lemmas about the Java header loop -/

theorem javaLoop_lookup_notmem (content : List Char)
    (hl2 : List (HeaderMatch × Nat)) (d r : Dict) (k : Key) :
    javaLoop content hl2 d = some r → (∀ p ∈ hl2, pstrip p.1.nameRaw ≠ k) →
    dlookup r k = dlookup d k := by
  induction hl2 generalizing d with
  | nil =>
    intro hl _
    rw [javaLoop] at hl
    obtain rfl : d = r := Option.some_injective _ hl
    rfl
  | cons q rest ih =>
    obtain ⟨h, e⟩ := q
    intro hl hne
    cases hsz : parseDecimal h.sizeStr with
    | none => simp only [javaLoop, hsz] at hl; exact absurd hl (by simp)
    | some sz =>
      cases hsr : searchJavaRow (content.drop e) with
      | none =>
        simp only [javaLoop, hsz, hsr] at hl
        exact ih _ hl (fun p hp => hne p (List.mem_cons_of_mem _ hp))
      | some pr =>
        obtain ⟨ts, ps⟩ := pr
        cases ht : parseDecimal ts with
        | none => simp only [javaLoop, hsz, hsr, ht] at hl; exact absurd hl (by simp)
        | some t =>
          cases hp : parseDecimal ps with
          | none => simp only [javaLoop, hsz, hsr, ht, hp] at hl; exact absurd hl (by simp)
          | some tp =>
            simp only [javaLoop, hsz, hsr, ht, hp] at hl
            have hk : pstrip h.nameRaw ≠ k := hne (h, e) (List.mem_cons_self _ _)
            rw [ih _ hl (fun p hps => hne p (List.mem_cons_of_mem _ hps))]
            exact dlookup_dinsert_ne _ _ _ _ hk

theorem javaLoop_lookup_of_mem (content : List Char)
    (hl2 : List (HeaderMatch × Nat)) (d r : Dict) (h : HeaderMatch) (e : Nat)
    (ts ps : List Char) (t tp : ℚ) :
    javaLoop content hl2 d = some r →
    (hl2.map (fun p => pstrip p.1.nameRaw)).Nodup →
    (h, e) ∈ hl2 →
    searchJavaRow (content.drop e) = some (ts, ps) →
    parseDecimal ts = some t → parseDecimal ps = some tp →
    dlookup r (pstrip h.nameRaw) =
      some [⟨"Harmonica".toList, "Java".toList, t, tp⟩] := by
  induction hl2 generalizing d with
  | nil => intro _ _ hp; simp at hp
  | cons q rest ih =>
    obtain ⟨h0, e0⟩ := q
    intro hl hnd hp hsr ht htp
    cases hsz : parseDecimal h0.sizeStr with
    | none => simp only [javaLoop, hsz] at hl; exact absurd hl (by simp)
    | some sz =>
      rw [List.map_cons, List.nodup_cons] at hnd
      rcases List.mem_cons.mp hp with hq | hq
      · have hh : h0 = h := congrArg Prod.fst hq.symm
        have he : e0 = e := congrArg Prod.snd hq.symm
        subst hh; subst he
        simp only [javaLoop, hsz, hsr, ht, htp] at hl
        have hnotin : ∀ p ∈ rest, pstrip p.1.nameRaw ≠ pstrip h0.nameRaw := by
          intro p hps hcontra
          have hmem : pstrip p.1.nameRaw ∈ rest.map (fun p => pstrip p.1.nameRaw) :=
            List.mem_map_of_mem _ hps
          rw [hcontra] at hmem
          exact hnd.1 hmem
        rw [javaLoop_lookup_notmem content rest _ r _ hl hnotin]
        exact dlookup_dinsert_self _ _ _
      · cases hsr0 : searchJavaRow (content.drop e0) with
        | none =>
          simp only [javaLoop, hsz, hsr0] at hl
          exact ih _ hl hnd.2 hq hsr ht htp
        | some pr =>
          obtain ⟨ts0, ps0⟩ := pr
          cases ht0 : parseDecimal ts0 with
          | none => simp only [javaLoop, hsz, hsr0, ht0] at hl; exact absurd hl (by simp)
          | some t0 =>
            cases htp0 : parseDecimal ps0 with
            | none => simp only [javaLoop, hsz, hsr0, ht0, htp0] at hl; exact absurd hl (by simp)
            | some tp0 =>
              simp only [javaLoop, hsz, hsr0, ht0, htp0] at hl
              exact ih _ hl hnd.2 hq hsr ht htp

theorem javaLoop_lookup_isSome (content : List Char)
    (hl2 : List (HeaderMatch × Nat)) (d r : Dict) (k : Key) :
    javaLoop content hl2 d = some r →
    ((dlookup r k).isSome ↔
      (dlookup d k).isSome ∨
      ∃ p, p ∈ hl2 ∧ pstrip p.1.nameRaw = k ∧
        (searchJavaRow (content.drop p.2)).isSome) := by
  induction hl2 generalizing d with
  | nil =>
    intro hl
    rw [javaLoop] at hl
    obtain rfl : d = r := Option.some_injective _ hl
    simp
  | cons q rest ih =>
    obtain ⟨h0, e0⟩ := q
    intro hl
    cases hsz : parseDecimal h0.sizeStr with
    | none => simp only [javaLoop, hsz] at hl; exact absurd hl (by simp)
    | some sz =>
      cases hsr0 : searchJavaRow (content.drop e0) with
      | none =>
        simp only [javaLoop, hsz, hsr0] at hl
        rw [ih _ hl]
        constructor
        · rintro (hd | ⟨p, hps, h1, h2⟩)
          · exact Or.inl hd
          · exact Or.inr ⟨p, List.mem_cons_of_mem _ hps, h1, h2⟩
        · rintro (hd | ⟨p, hps, h1, h2⟩)
          · exact Or.inl hd
          · rcases List.mem_cons.mp hps with hq | hq
            · subst hq
              rw [hsr0] at h2
              simp at h2
            · exact Or.inr ⟨p, hq, h1, h2⟩
      | some pr =>
        obtain ⟨ts0, ps0⟩ := pr
        cases ht0 : parseDecimal ts0 with
        | none => simp only [javaLoop, hsz, hsr0, ht0] at hl; exact absurd hl (by simp)
        | some t0 =>
          cases htp0 : parseDecimal ps0 with
          | none => simp only [javaLoop, hsz, hsr0, ht0, htp0] at hl; exact absurd hl (by simp)
          | some tp0 =>
            simp only [javaLoop, hsz, hsr0, ht0, htp0] at hl
            rw [ih _ hl, dlookup_dinsert_isSome]
            constructor
            · rintro ((hk | hd) | ⟨p, hps, h1, h2⟩)
              · exact Or.inr ⟨(h0, e0), List.mem_cons_self _ _, hk, by rw [hsr0]; simp⟩
              · exact Or.inl hd
              · exact Or.inr ⟨p, List.mem_cons_of_mem _ hps, h1, h2⟩
            · rintro (hd | ⟨p, hps, h1, h2⟩)
              · exact Or.inl (Or.inr hd)
              · rcases List.mem_cons.mp hps with hq | hq
                · subst hq
                  exact Or.inl (Or.inl h1)
                · exact Or.inr ⟨p, hq, h1, h2⟩

theorem javaLoop_nonempty (content : List Char)
    (hl2 : List (HeaderMatch × Nat)) (d r : Dict) :
    javaLoop content hl2 d = some r →
    (∀ k v, dlookup d k = some v → v ≠ []) →
    ∀ k v, dlookup r k = some v → v ≠ [] := by
  induction hl2 generalizing d with
  | nil =>
    intro hl hd
    rw [javaLoop] at hl
    obtain rfl : d = r := Option.some_injective _ hl
    exact hd
  | cons q rest ih =>
    obtain ⟨h0, e0⟩ := q
    intro hl hd
    cases hsz : parseDecimal h0.sizeStr with
    | none => simp only [javaLoop, hsz] at hl; exact absurd hl (by simp)
    | some sz =>
      cases hsr0 : searchJavaRow (content.drop e0) with
      | none =>
        simp only [javaLoop, hsz, hsr0] at hl
        exact ih _ hl hd
      | some pr =>
        obtain ⟨ts0, ps0⟩ := pr
        cases ht0 : parseDecimal ts0 with
        | none => simp only [javaLoop, hsz, hsr0, ht0] at hl; exact absurd hl (by simp)
        | some t0 =>
          cases htp0 : parseDecimal ps0 with
          | none => simp only [javaLoop, hsz, hsr0, ht0, htp0] at hl; exact absurd hl (by simp)
          | some tp0 =>
            simp only [javaLoop, hsz, hsr0, ht0, htp0] at hl
            refine ih _ hl ?_
            intro k v hv
            rcases dlookup_dinsert_cases d _ k _ v hv with hcase | hcase
            · subst hcase; simp
            · exact hd k v hcase

/-! ### Lemmas about merge_results -/

theorem dlookup_keyfun {α : Type} (ks : List Key) (f : Key → α) (k : Key) :
    ks.Nodup →
    dlookup (ks.map (fun k2 => (k2, f k2))) k =
      if k ∈ ks then some (f k) else none := by
  induction ks with
  | nil => intro _; simp [dlookup]
  | cons k0 ks ih =>
    intro hnd
    rw [List.nodup_cons] at hnd
    by_cases h : k0 = k
    · subst h
      simp [dlookup]
    · rw [List.map_cons]
      rw [show dlookup ((k0, f k0) :: ks.map (fun k2 => (k2, f k2))) k =
            dlookup (ks.map (fun k2 => (k2, f k2))) k by simp [dlookup, h]]
      rw [ih hnd.2]
      simp [h, Ne.symm h]

theorem merge_results_lookup (a b c : Dict) (k : Key) :
    dlookup (merge_results a b c) k =
      if k ∈ dkeys a ++ dkeys b ++ dkeys c then
        some ((dlookup a k).getD [] ++ (dlookup b k).getD [] ++ (dlookup c k).getD [])
      else none := by
  unfold merge_results
  rw [dlookup_keyfun _ _ _ (List.nodup_dedup _)]
  simp [List.mem_dedup]

/-! ### Where section keys come from -/

theorem sectionsFrom_fst_mem (content : List Char)
    (l : List (Nat × HeaderMatch × Nat)) (p : HeaderMatch × List Char) :
    p ∈ sectionsFrom content l → ∃ x ∈ l, p.1 = x.2.1 := by
  induction l with
  | nil => intro hp; simp [sectionsFrom] at hp
  | cons x l ih =>
    obtain ⟨i, h, e⟩ := x
    cases l with
    | nil =>
      intro hp
      simp only [sectionsFrom, List.mem_singleton] at hp
      exact ⟨(i, h, e), by simp, by rw [hp]⟩
    | cons y l2 =>
      obtain ⟨j, h2, e2⟩ := y
      intro hp
      rw [sectionsFrom] at hp
      rcases List.mem_cons.mp hp with hq | hq
      · exact ⟨(i, h, e), by simp, by rw [hq]⟩
      · obtain ⟨x, hx, hfst⟩ := ih hq
        exact ⟨x, List.mem_cons_of_mem _ hx, hfst⟩

theorem normSections_key (content : List Char) (q : Key × List Char) :
    q ∈ normSections content →
    ∃ x ∈ headersOf content,
      q.1 = normalize_library_name (pstrip x.2.1.nameRaw) := by
  intro hq
  unfold normSections at hq
  obtain ⟨p, hp, heq⟩ := List.mem_map.mp hq
  obtain ⟨x, hx, hfst⟩ := sectionsFrom_fst_mem content _ p hp
  refine ⟨x, hx, ?_⟩
  rw [← heq]
  simp [hfst]

/-! ### Characterization of a library-header match -/

theorem isPrefixOf_iff_append (l1 l2 : List Char) :
    l1.isPrefixOf l2 ↔ ∃ t, l2 = l1 ++ t := by
  rw [ List.isPrefixOf_iff_prefix]
  constructor
  · rintro ⟨t, ht⟩
    exact ⟨t, ht.symm⟩
  · rintro ⟨t, ht⟩
    exact ⟨t, ht.symm⟩

theorem litAt_eq_some (lit s : List Char) (p q : Nat) :
    litAt lit s p = some q ↔
      (∃ t, s.drop p = lit ++ t) ∧ q = p + lit.length := by
  rw [← isPrefixOf_iff_append]
  unfold litAt
  split
  next h =>
    constructor
    · intro hs
      exact ⟨h, (Option.some_injective _ hs).symm⟩
    · rintro ⟨_, rfl⟩
      rfl
  next h =>
    constructor
    · intro hs
      exact absurd hs (by simp)
    · rintro ⟨h2, _⟩
      exact absurd h2 h

theorem munch1_eq_some (cls : Char → Bool) (s : List Char) (p q : Nat)
    (run : List Char) :
    munch1 cls s p = some (run, q) ↔
      run = (s.drop p).takeWhile cls ∧ run ≠ [] ∧ q = p + run.length := by
  simp only [munch1]
  by_cases hr : (s.drop p).takeWhile cls = []
  · rw [if_pos hr]
    constructor
    · intro h
      exact absurd h (by simp)
    · rintro ⟨h1, h2, _⟩
      rw [hr] at h1
      exact absurd h1 h2
  · rw [if_neg hr]
    constructor
    · intro h
      rw [Option.some_inj, Prod.mk.injEq] at h
      obtain ⟨hrun, hq⟩ := h
      subst hrun
      exact ⟨rfl, hr, hq.symm⟩
    · rintro ⟨h1, _, h3⟩
      subst h1
      simp [h3]

theorem takeWhile_append_not (p : Char → Bool) (l u : List Char) (x : Char)
    (hall : ∀ c ∈ l, p c = true) (hx : p x = false) :
    (l ++ x :: u).takeWhile p = l ∧ (l ++ x :: u).dropWhile p = x :: u := by
  induction l with
  | nil => simp [List.takeWhile, List.dropWhile, hx]
  | cons c l ih =>
    have hc : p c = true := hall c (by simp)
    have ih2 := ih (fun d hd => hall d (by simp [hd]))
    simp [List.takeWhile, List.dropWhile, hc, ih2.1, ih2.2]

theorem drop_of_drop_eq_append (s : List Char) (i : Nat) (l t : List Char)
    (h : s.drop i = l ++ t) : s.drop (i + l.length) = t := by
  rw [← List.drop_drop, h, List.drop_left]

theorem headerMatchAt_iff (s : List Char) (i : Nat) (n sz : List Char) (e : Nat) :
    headerMatchAt s i = some (⟨n, sz⟩, e) ↔
      (∃ rest, s.drop i =
        "Library: ".toList ++
          (n ++ ('\n' :: ("Size: ".toList ++ (sz ++ (" KB".toList ++ rest)))))) ∧
      n ≠ [] ∧ '\n' ∉ n ∧ sz ≠ [] ∧ (∀ c ∈ sz, isDD c = true) ∧
      e = i + n.length + sz.length + 19 := by
  have h9 : ("Library: ".toList).length = 9 := rfl
  have h7 : ("\nSize: ".toList).length = 7 := rfl
  have h3 : (" KB".toList).length = 3 := rfl
  constructor
  · intro hm
    simp only [headerMatchAt] at hm
    split at hm
    next => exact absurd hm (by simp)
    next p0 hlit =>
    split at hm
    next => exact absurd hm (by simp)
    next hname =>
    split at hm
    next => exact absurd hm (by simp)
    next p1 hsz2 =>
    split at hm
    next => exact absurd hm (by simp)
    next sz0 p2 hmun =>
    split at hm
    next => exact absurd hm (by simp)
    next p3 hkb =>
    rw [Option.some_inj, Prod.mk.injEq, HeaderMatch.mk.injEq] at hm
    obtain ⟨⟨hn, hsz0⟩, he⟩ := hm
    subst hsz0
    subst he
    obtain ⟨⟨t0, ht0⟩, hp0⟩ := (litAt_eq_some _ _ _ _).mp hlit
    obtain ⟨⟨t1, ht1⟩, hp1⟩ := (litAt_eq_some _ _ _ _).mp hsz2
    obtain ⟨hszrun, hszne, hp2⟩ := (munch1_eq_some _ _ _ _ _).mp hmun
    obtain ⟨⟨t2, ht2⟩, hp3⟩ := (litAt_eq_some _ _ _ _).mp hkb
    have hd0 : s.drop p0 = t0 := by
      rw [hp0]
      exact drop_of_drop_eq_append s i _ t0 ht0
    rw [hd0] at hn hname ht1 hp1
    rw [hn] at ht1 hp1
    have hsplit0 : n ++ t0.dropWhile (fun c => c ≠ '\n') = t0 := by
      rw [← hn]
      exact List.takeWhile_append_dropWhile _ _
    have hd1 : s.drop (p0 + n.length) = t0.dropWhile (fun c => c ≠ '\n') :=
      drop_of_drop_eq_append s p0 n (t0.dropWhile (fun c => c ≠ '\n'))
        (hd0.trans hsplit0.symm)
    rw [hd1] at ht1
    have hd2 : s.drop p1 = t1 := by
      rw [hp1]
      exact drop_of_drop_eq_append s (p0 + n.length) _ t1 (hd1.trans ht1)
    rw [hd2] at hszrun
    have hsplit1 : sz0 ++ t1.dropWhile isDD = t1 := by
      rw [hszrun]
      exact List.takeWhile_append_dropWhile _ _
    have hd3 : s.drop p2 = t1.dropWhile isDD := by
      rw [hp2]
      exact drop_of_drop_eq_append s p1 sz0 (t1.dropWhile isDD)
        (hd2.trans hsplit1.symm)
    rw [hd3] at ht2
    refine ⟨⟨t2, ?_⟩, ?_, ?_, hszne, ?_, ?_⟩
    · rw [ht0, ← hsplit0, ht1, ← hsplit1, ht2]
      rfl
    · intro hcon
      rw [hcon] at hn
      exact hname hn
    · intro hmem
      rw [← hn] at hmem
      have hpr := List.mem_takeWhile_imp hmem
      simp at hpr
    · intro c hc
      rw [hszrun] at hc
      exact List.mem_takeWhile_imp hc
    · rw [h9] at hp0
      rw [h7] at hp1
      rw [h3] at hp3
      omega
  · rintro ⟨⟨rest, hdec⟩, hnne, hnnl, hszne, hszdd, he⟩
    have hd0 : s.drop (i + 9) =
        n ++ ('\n' :: ("Size: ".toList ++ (sz ++ (" KB".toList ++ rest)))) := by
      rw [← h9]
      exact drop_of_drop_eq_append s i _ _ hdec
    have hall : ∀ c ∈ n, (fun c => decide (c ≠ '\n')) c = true := by
      intro c hc
      rw [decide_eq_true_eq]
      intro hcon
      rw [hcon] at hc
      exact hnnl hc
    have hnl : (fun c => decide (c ≠ '\n')) '\n' = false := by simp
    have htkd := takeWhile_append_not (fun c => decide (c ≠ '\n')) n
      ("Size: ".toList ++ (sz ++ (" KB".toList ++ rest))) '\n' hall hnl
    have hlit : litAt ("Library: ".toList) s i = some (i + 9) := by
      rw [litAt_eq_some]
      refine ⟨⟨_, hdec⟩, ?_⟩
      rfl
    have htk : (s.drop (i + 9)).takeWhile (fun c => c ≠ '\n') = n := by
      rw [hd0]
      exact htkd.1
    have hd1 : s.drop (i + 9 + n.length) =
        "\nSize: ".toList ++ (sz ++ (" KB".toList ++ rest)) :=
      drop_of_drop_eq_append s (i + 9) n _ hd0
    have hlit2 : litAt ("\nSize: ".toList) s (i + 9 + n.length) =
        some (i + 9 + n.length + 7) := by
      rw [litAt_eq_some]
      refine ⟨⟨_, hd1⟩, ?_⟩
      rfl
    have hsp : isDD ' ' = false := rfl
    have htkd2 := takeWhile_append_not isDD sz ("KB".toList ++ rest) ' ' hszdd hsp
    have hd2 : s.drop (i + 9 + n.length + 7) = sz ++ (" KB".toList ++ rest) := by
      rw [← h7]
      exact drop_of_drop_eq_append s (i + 9 + n.length) _ _ hd1
    have hmun : munch1 isDD s (i + 9 + n.length + 7) =
        some (sz, i + 9 + n.length + 7 + sz.length) := by
      rw [munch1_eq_some]
      refine ⟨?_, hszne, rfl⟩
      rw [hd2]
      rw [show sz ++ (" KB".toList ++ rest) = sz ++ (' ' :: ("KB".toList ++ rest)) from rfl]
      exact htkd2.1.symm
    have hd3 : s.drop (i + 9 + n.length + 7 + sz.length) = " KB".toList ++ rest :=
      drop_of_drop_eq_append s (i + 9 + n.length + 7) sz _ hd2
    have hkb : litAt (" KB".toList) s (i + 9 + n.length + 7 + sz.length) =
        some (i + 9 + n.length + 7 + sz.length + 3) := by
      rw [litAt_eq_some]
      refine ⟨⟨rest, hd3⟩, ?_⟩
      rfl
    simp only [headerMatchAt, hlit, htk, if_neg hnne, hlit2, hmun, hkb]
    simp only [Option.some_inj, Prod.mk.injEq, HeaderMatch.mk.injEq, true_and, and_true]
    omega

theorem sectionLoop_split_last (lib : List Char → Option (List BenchmarkResult))
    (A post : List (Key × List Char)) (k : Key) (sec2 : List Char)
    (rs2 : List BenchmarkResult) (r : Dict) :
    sectionLoop lib (A ++ (k, sec2) :: post) [] = some r →
    (∀ p ∈ post, p.1 ≠ k) →
    lib sec2 = some rs2 → rs2 ≠ [] →
    dlookup r k = some rs2 := by
  intro hl hpost hlib hne
  rw [sectionLoop_append] at hl
  obtain ⟨d1, _, hd2⟩ := Option.bind_eq_some.mp hl
  rw [sectionLoop, hlib] at hd2
  have hd2b : sectionLoop lib post (if rs2 = [] then d1 else dinsert d1 k rs2) = some r := hd2
  rw [if_neg hne] at hd2b
  rw [sectionLoop_lookup_notmem lib post _ r k hd2b hpost]
  exact dlookup_dinsert_self _ _ _

/-! ### The claims -/

/-- C4: merge_results returns a mapping whose key set is the union of the
three input key sets; the value for every key is the Java list, then the
JavaScript list, then the Rust list; with disjoint key sets each value
equals its unique single-source list, and a key present in two sources
gets a list whose length is the sum of the two contributing lengths in
Java-JavaScript-Rust order. -/
theorem claim_C4 :
    ∀ a b c : Dict, ∀ k : Key,
      ((dlookup (merge_results a b c) k).isSome ↔
        (dlookup a k).isSome ∨ (dlookup b k).isSome ∨ (dlookup c k).isSome) ∧
      (∀ v, dlookup (merge_results a b c) k = some v →
        v = (dlookup a k).getD [] ++ (dlookup b k).getD [] ++ (dlookup c k).getD []) ∧
      (∀ va, dlookup a k = some va → dlookup b k = none → dlookup c k = none →
        dlookup (merge_results a b c) k = some va) ∧
      (∀ va vb, dlookup a k = some va → dlookup b k = some vb → dlookup c k = none →
        dlookup (merge_results a b c) k = some (va ++ vb) ∧
          (va ++ vb).length = va.length + vb.length) := by
  intro a b c k
  have hm := merge_results_lookup a b c k
  have hiff : k ∈ dkeys a ++ dkeys b ++ dkeys c ↔
      (dlookup a k).isSome ∨ (dlookup b k).isSome ∨ (dlookup c k).isSome := by
    simp [List.mem_append, mem_dkeys_iff, or_assoc]
  refine ⟨?_, ?_, ?_, ?_⟩
  · constructor
    · intro hs
      by_cases hk : k ∈ dkeys a ++ dkeys b ++ dkeys c
      · exact hiff.mp hk
      · rw [hm, if_neg hk] at hs
        exact absurd hs (by simp)
    · intro ho
      rw [hm, if_pos (hiff.mpr ho)]
      simp
  · intro v hv
    by_cases hk : k ∈ dkeys a ++ dkeys b ++ dkeys c
    · rw [hm, if_pos hk] at hv
      exact (Option.some_injective _ hv).symm
    · rw [hm, if_neg hk] at hv
      exact absurd hv (by simp)
  · intro va hva hb hc
    rw [hm, if_pos (hiff.mpr (Or.inl (by rw [hva]; rfl)))]
    simp [hva, hb, hc]
  · intro va vb hva hvb hc
    refine ⟨?_, (List.length_append _ _)⟩
    rw [hm, if_pos (hiff.mpr (Or.inl (by rw [hva]; rfl)))]
    simp [hva, hvb, hc]

/-- C4 witness: merging two overlapping singleton mappings and an empty
one concatenates the two lists for the shared key. -/
theorem claim_C4_witness :
    dlookup
      (merge_results
        [("Foo".toList, [BenchmarkResult.mk ("Harmonica".toList) ("Java".toList) 1 2])]
        [("Foo".toList, [BenchmarkResult.mk ("Meriyah".toList) ("JavaScript".toList) 3 4])]
        [])
      ("Foo".toList) =
      some [BenchmarkResult.mk ("Harmonica".toList) ("Java".toList) 1 2,
        BenchmarkResult.mk ("Meriyah".toList) ("JavaScript".toList) 3 4] ∧
    ([BenchmarkResult.mk ("Harmonica".toList) ("Java".toList) 1 2] ++
      [BenchmarkResult.mk ("Meriyah".toList) ("JavaScript".toList) 3 4]).length = 1 + 1 := by
  have h := (claim_C4
    [("Foo".toList, [BenchmarkResult.mk ("Harmonica".toList) ("Java".toList) 1 2])]
    [("Foo".toList, [BenchmarkResult.mk ("Meriyah".toList) ("JavaScript".toList) 3 4])]
    [] ("Foo".toList)).2.2.2
    [BenchmarkResult.mk ("Harmonica".toList) ("Java".toList) 1 2]
    [BenchmarkResult.mk ("Meriyah".toList) ("JavaScript".toList) 3 4]
    (by decide) (by decide) (by decide)
  exact ⟨h.1, h.2⟩

/-- C6: when the named input file does not exist, each extractor returns
an empty mapping instead of failing. -/
theorem claim_C6 :
    ∀ (fs : List Char → Option (List Char)) (filepath : List Char),
      fs filepath = none →
      parse_java_results fs filepath = some [] ∧
      parse_javascript_results fs filepath = some [] ∧
      parse_rust_results fs filepath = some [] := by
  intro fs filepath hf
  refine ⟨?_, ?_, ?_⟩ <;> simp [parse_java_results, parse_javascript_results,
    parse_rust_results, hf]

/-- C6 witness: a filesystem with no files at all. -/
theorem claim_C6_witness :
    parse_java_results (fun _ => none) ("java.txt".toList) = some [] ∧
    parse_javascript_results (fun _ => none) ("js.txt".toList) = some [] ∧
    parse_rust_results (fun _ => none) ("rust.txt".toList) = some [] :=
  ⟨(claim_C6 (fun _ => none) ("java.txt".toList) rfl).1,
   (claim_C6 (fun _ => none) ("js.txt".toList) rfl).2.1,
   (claim_C6 (fun _ => none) ("rust.txt".toList) rfl).2.2⟩

/-- C7: when all three extractor outputs are empty the pipeline reports
the no-results failure and stops before merging; when at least one is
non-empty it proceeds to merge; with all three source files absent the
whole extract-and-decide pipeline ends in that failure. -/
theorem claim_C7 :
    (∀ jd jsd rd : Dict,
      (jd = [] ∧ jsd = [] ∧ rd = [] →
        run_pipeline jd jsd rd = Except.error noResultsMsg) ∧
      (¬(jd = [] ∧ jsd = [] ∧ rd = []) →
        run_pipeline jd jsd rd = Except.ok (merge_results jd jsd rd))) ∧
    (∀ (fs : List Char → Option (List Char)) (p1 p2 p3 : List Char),
      fs p1 = none → fs p2 = none → fs p3 = none →
      (parse_java_results fs p1).bind (fun jd =>
        (parse_javascript_results fs p2).bind (fun jsd =>
          (parse_rust_results fs p3).map (fun rd =>
            run_pipeline jd jsd rd))) = some (Except.error noResultsMsg)) := by
  constructor
  · intro jd jsd rd
    constructor
    · intro h
      rw [run_pipeline, if_pos h]
    · intro h
      rw [run_pipeline, if_neg h]
  · intro fs p1 p2 p3 h1 h2 h3
    simp only [parse_java_results, parse_javascript_results, parse_rust_results,
      h1, h2, h3, Option.bind, Option.map]
    rw [run_pipeline, if_pos ⟨rfl, rfl, rfl⟩]

/-- C7 witness: three absent files yield the fatal no-results report. -/
theorem claim_C7_witness :
    run_pipeline [] [] [] = Except.error noResultsMsg ∧
    (parse_java_results (fun _ => none) ("a".toList)).bind (fun jd =>
      (parse_javascript_results (fun _ => none) ("b".toList)).bind (fun jsd =>
        (parse_rust_results (fun _ => none) ("c".toList)).map (fun rd =>
          run_pipeline jd jsd rd))) = some (Except.error noResultsMsg) :=
  ⟨(claim_C7.1 [] [] []).1 ⟨rfl, rfl, rfl⟩,
   claim_C7.2 (fun _ => none) ("a".toList) ("b".toList) ("c".toList) rfl rfl rfl⟩

/-- C8: normalize_library_name maps each of the six known raw labels to
its canonical display form and returns any other string unchanged. -/
theorem claim_C8 :
    (normalize_library_name ("react.production.min.js".toList) = "React".toList ∧
     normalize_library_name ("vue.global.prod.js".toList) = "Vue 3".toList ∧
     normalize_library_name ("react-dom.production.min.js".toList) = "React DOM".toList ∧
     normalize_library_name ("lodash.js".toList) = "Lodash".toList ∧
     normalize_library_name ("three.js".toList) = "Three.js".toList ∧
     normalize_library_name ("typescript.js".toList) = "TypeScript Compiler".toList) ∧
    (∀ s : List Char,
      s ∉ ["react.production.min.js".toList, "vue.global.prod.js".toList,
        "react-dom.production.min.js".toList, "lodash.js".toList,
        "three.js".toList, "typescript.js".toList] →
      normalize_library_name s = s) := by
  constructor
  · exact ⟨by decide, by decide, by decide, by decide, by decide, by decide⟩
  · intro s hs
    simp only [List.mem_cons, List.not_mem_nil, or_false, not_or] at hs
    obtain ⟨h1, h2, h3, h4, h5, h6⟩ := hs
    rw [normalize_library_name, if_neg h1, if_neg h2, if_neg h3, if_neg h4,
      if_neg h5, if_neg h6]

/-- C8 witness: an unknown label passes through unchanged. -/
theorem claim_C8_witness :
    normalize_library_name ("Harmonica".toList) = "Harmonica".toList :=
  claim_C8.2 ("Harmonica".toList) (by decide)

/-- C10: every key of any extractor output is bound to a non-empty
measurement list, and merge_results preserves non-emptiness of all
bound lists. -/
theorem claim_C10 :
    (∀ content d k v, parse_java_text content = some d →
      dlookup d k = some v → v ≠ []) ∧
    (∀ content d k v, parse_javascript_text content = some d →
      dlookup d k = some v → v ≠ []) ∧
    (∀ content d k v, parse_rust_text content = some d →
      dlookup d k = some v → v ≠ []) ∧
    (∀ a b c : Dict,
      (∀ k v, dlookup a k = some v → v ≠ []) →
      (∀ k v, dlookup b k = some v → v ≠ []) →
      (∀ k v, dlookup c k = some v → v ≠ []) →
      ∀ k v, dlookup (merge_results a b c) k = some v → v ≠ []) := by
  have hbase : ∀ k v, dlookup ([] : Dict) k = some v → v ≠ [] := by
    intro k v h
    exact absurd h (by simp [dlookup])
  refine ⟨?_, ?_, ?_, ?_⟩
  · intro content d k v hp hv
    exact javaLoop_nonempty content (javaHeaders content) [] d hp hbase k v hv
  · intro content d k v hp hv
    exact sectionLoop_nonempty jsLibResults (normSections content) [] d hp hbase k v hv
  · intro content d k v hp hv
    exact sectionLoop_nonempty rustLibResults (normSections content) [] d hp hbase k v hv
  · intro a b c ha hb hc k v hv
    have hm := merge_results_lookup a b c k
    by_cases hk : k ∈ dkeys a ++ dkeys b ++ dkeys c
    · rw [hm, if_pos hk] at hv
      have hveq := (Option.some_injective _ hv).symm
      intro hcon
      rw [hcon] at hveq
      have hnil := hveq.symm
      rw [List.append_eq_nil, List.append_eq_nil] at hnil
      obtain ⟨⟨hna, hnb⟩, hnc⟩ := hnil
      rcases (List.mem_append.mp hk) with hab | hcm
      · rcases (List.mem_append.mp hab) with ham | hbm
        · obtain ⟨va, hva⟩ := Option.isSome_iff_exists.mp ((mem_dkeys_iff a k).mp ham)
          rw [hva] at hna
          exact ha k va hva (by simpa using hna)
        · obtain ⟨vb, hvb⟩ := Option.isSome_iff_exists.mp ((mem_dkeys_iff b k).mp hbm)
          rw [hvb] at hnb
          exact hb k vb hvb (by simpa using hnb)
      · obtain ⟨vc, hvc⟩ := Option.isSome_iff_exists.mp ((mem_dkeys_iff c k).mp hcm)
        rw [hvc] at hnc
        exact hc k vc hvc (by simpa using hnc)
    · rw [hm, if_neg hk] at hv
      exact absurd hv (by simp)

/-- C10 witness: the Java extractor binds the one library of a concrete
report to a non-empty list. -/
theorem claim_C10_witness :
    [BenchmarkResult.mk ("Harmonica".toList) ("Java".toList) (mkRat 3 2) (mkRat 67 10)] ≠ [] :=
  claim_C10.1 exJavaText
    [("Foo".toList,
      [BenchmarkResult.mk ("Harmonica".toList) ("Java".toList) (mkRat 3 2) (mkRat 67 10)])]
    ("Foo".toList)
    [BenchmarkResult.mk ("Harmonica".toList) ("Java".toList) (mkRat 3 2) (mkRat 67 10)]
    (by decide) (by decide)

/-- C1 counterexample: the Java report cJava1 has exactly one library
header whose section contains two well-formed result rows, but the Java
extractor binds the library to a single measurement, not two. -/
theorem claim_C1_counterexample :
    headersOf cJava1 = [(0, ⟨"A".toList, "1.0".toList⟩, 23)] ∧
    sectionsFrom cJava1 (headersOf cJava1) =
      [(⟨"A".toList, "1.0".toList⟩, pyslice cJava1 23 cJava1.length)] ∧
    (javaRowsOf (pyslice cJava1 23 cJava1.length)).length = 2 ∧
    parse_java_text cJava1 =
      some [("A".toList,
        [BenchmarkResult.mk ("Harmonica".toList) ("Java".toList) (mkRat 1 1) (mkRat 2 1)])] ∧
    [BenchmarkResult.mk ("Harmonica".toList) ("Java".toList) (mkRat 1 1) (mkRat 2 1)].length ≠ 2 :=
  ⟨by decide, by decide, by decide, by decide, by decide⟩

/-- C1 amended: the JavaScript and Rust extractors return exactly the
libraries whose section has at least one matched row, each bound (when
normalized names are distinct) to exactly the measurements of its
section rows with the parsed numeric fields; the Java extractor instead
binds each header name to at most ONE measurement, taken from the first
Java row found anywhere in the text after that header. -/
theorem claim_C1_amended :
    (∀ content d, parse_javascript_text content = some d →
      ((normSections content).map Prod.fst).Nodup →
      (∀ k sec rs, (k, sec) ∈ normSections content →
        jsLibResults sec = some rs →
        (rs ≠ [] → dlookup d k = some rs) ∧
        rs.length = (jsRowsOf sec).length ∧
        (∀ j (h1 : j < (jsRowsOf sec).length) (h2 : j < rs.length),
          jsToResult ((jsRowsOf sec).get ⟨j, h1⟩) = some (rs.get ⟨j, h2⟩))) ∧
      (∀ k, (dlookup d k).isSome ↔
        ∃ p, p ∈ normSections content ∧ p.1 = k ∧
          ∃ rs, jsLibResults p.2 = some rs ∧ rs ≠ [])) ∧
    (∀ content d, parse_rust_text content = some d →
      ((normSections content).map Prod.fst).Nodup →
      (∀ k sec rs, (k, sec) ∈ normSections content →
        rustLibResults sec = some rs →
        (rs ≠ [] → dlookup d k = some rs) ∧
        rs.length = (rustRowsOf sec).length ∧
        (∀ j (h1 : j < (rustRowsOf sec).length) (h2 : j < rs.length),
          rustToResult ((rustRowsOf sec).get ⟨j, h1⟩) = some (rs.get ⟨j, h2⟩))) ∧
      (∀ k, (dlookup d k).isSome ↔
        ∃ p, p ∈ normSections content ∧ p.1 = k ∧
          ∃ rs, rustLibResults p.2 = some rs ∧ rs ≠ [])) ∧
    (∀ content d h e ts ps t tp,
      parse_java_text content = some d →
      ((javaHeaders content).map (fun p => pstrip p.1.nameRaw)).Nodup →
      (h, e) ∈ javaHeaders content →
      searchJavaRow (content.drop e) = some (ts, ps) →
      parseDecimal ts = some t → parseDecimal ps = some tp →
      dlookup d (pstrip h.nameRaw) =
        some [BenchmarkResult.mk ("Harmonica".toList) ("Java".toList) t tp]) := by
  refine ⟨?_, ?_, ?_⟩
  · intro content d hp hnd
    constructor
    · intro k sec rs hmem hlib
      refine ⟨?_, omapM_length _ _ _ hlib, omapM_get _ _ _ hlib⟩
      intro hne
      exact sectionLoop_lookup_of_mem jsLibResults (normSections content) [] d
        k sec rs hp hnd hmem hlib hne
    · intro k
      rw [sectionLoop_lookup_isSome jsLibResults (normSections content) [] d k hp]
      simp [dlookup]
  · intro content d hp hnd
    constructor
    · intro k sec rs hmem hlib
      refine ⟨?_, omapM_length _ _ _ hlib, omapM_get _ _ _ hlib⟩
      intro hne
      exact sectionLoop_lookup_of_mem rustLibResults (normSections content) [] d
        k sec rs hp hnd hmem hlib hne
    · intro k
      rw [sectionLoop_lookup_isSome rustLibResults (normSections content) [] d k hp]
      simp [dlookup]
  · intro content d h e ts ps t tp hp hnd hmem hsr ht htp
    exact javaLoop_lookup_of_mem content (javaHeaders content) [] d h e ts ps t tp
      hp hnd hmem hsr ht htp

/-- C1 witness: one JavaScript library with one row is bound to exactly
that one parsed measurement. -/
theorem claim_C1_witness :
    dlookup
      [("Lodash".toList,
        [BenchmarkResult.mk ("Meriyah".toList) ("JavaScript".toList)
          (mkRat 15 10) (mkRat 67 10)])]
      ("Lodash".toList) =
      some [BenchmarkResult.mk ("Meriyah".toList) ("JavaScript".toList)
        (mkRat 15 10) (mkRat 67 10)] :=
  ((claim_C1_amended.1 exJsText
      [("Lodash".toList,
        [BenchmarkResult.mk ("Meriyah".toList) ("JavaScript".toList)
          (mkRat 15 10) (mkRat 67 10)])]
      (by decide) (by decide)).1
    ("Lodash".toList)
    ("\n🥇 Meriyah | 1.5 | 1.00x | 6.7 KB/ms\n".toList)
    [BenchmarkResult.mk ("Meriyah".toList) ("JavaScript".toList)
      (mkRat 15 10) (mkRat 67 10)]
    (by decide) (by decide)).1 (by decide)

/-- C2 counterexample: in the Java report cJava2 the first library
section contains zero result rows, yet the Java extractor still binds
that library, using a row that lies beyond its section. -/
theorem claim_C2_counterexample :
    sectionsFrom cJava2 (headersOf cJava2) =
      [(⟨"A".toList, "1.0".toList⟩, pyslice cJava2 23 24),
       (⟨"B".toList, "2.0".toList⟩, pyslice cJava2 47 cJava2.length)] ∧
    javaRowsOf (pyslice cJava2 23 24) = [] ∧
    parse_java_text cJava2 =
      some [("A".toList,
          [BenchmarkResult.mk ("Harmonica".toList) ("Java".toList) (mkRat 1 1) (mkRat 2 1)]),
        ("B".toList,
          [BenchmarkResult.mk ("Harmonica".toList) ("Java".toList) (mkRat 1 1) (mkRat 2 1)])] ∧
    (dlookup
      [("A".toList,
          [BenchmarkResult.mk ("Harmonica".toList) ("Java".toList) (mkRat 1 1) (mkRat 2 1)]),
        ("B".toList,
          [BenchmarkResult.mk ("Harmonica".toList) ("Java".toList) (mkRat 1 1) (mkRat 2 1)])]
      ("A".toList)).isSome :=
  ⟨by decide, by decide, by decide, by decide⟩

/-- C2 amended: the JavaScript and Rust extractors bind exactly the
normalized names of headers whose SECTION contains a row; the Java
extractor binds exactly the stripped names of headers followed by a row
anywhere in the remaining text, section boundaries ignored. -/
theorem claim_C2_amended :
    (∀ content d k, parse_javascript_text content = some d →
      ((dlookup d k).isSome ↔
        ∃ p, p ∈ normSections content ∧ p.1 = k ∧ jsRowsOf p.2 ≠ [])) ∧
    (∀ content d k, parse_rust_text content = some d →
      ((dlookup d k).isSome ↔
        ∃ p, p ∈ normSections content ∧ p.1 = k ∧ rustRowsOf p.2 ≠ [])) ∧
    (∀ content d k, parse_java_text content = some d →
      ((dlookup d k).isSome ↔
        ∃ p, p ∈ javaHeaders content ∧ pstrip p.1.nameRaw = k ∧
          (searchJavaRow (content.drop p.2)).isSome)) := by
  refine ⟨?_, ?_, ?_⟩
  · intro content d k hp
    rw [sectionLoop_lookup_isSome jsLibResults (normSections content) [] d k hp]
    simp only [dlookup, Option.isSome_none, Bool.false_eq_true, false_or]
    constructor
    · rintro ⟨p, hm, hk, rs, hlib, hne⟩
      exact ⟨p, hm, hk, fun hrow => hne ((omapM_eq_nil_iff _ _ _ hlib).mpr hrow)⟩
    · rintro ⟨p, hm, hk, hrow⟩
      obtain ⟨rs, hlib⟩ := sectionLoop_some jsLibResults (normSections content) [] d hp p hm
      exact ⟨p, hm, hk, rs, hlib, fun hrs => hrow ((omapM_eq_nil_iff _ _ _ hlib).mp hrs)⟩
  · intro content d k hp
    rw [sectionLoop_lookup_isSome rustLibResults (normSections content) [] d k hp]
    simp only [dlookup, Option.isSome_none, Bool.false_eq_true, false_or]
    constructor
    · rintro ⟨p, hm, hk, rs, hlib, hne⟩
      exact ⟨p, hm, hk, fun hrow => hne ((omapM_eq_nil_iff _ _ _ hlib).mpr hrow)⟩
    · rintro ⟨p, hm, hk, hrow⟩
      obtain ⟨rs, hlib⟩ := sectionLoop_some rustLibResults (normSections content) [] d hp p hm
      exact ⟨p, hm, hk, rs, hlib, fun hrs => hrow ((omapM_eq_nil_iff _ _ _ hlib).mp hrs)⟩
  · intro content d k hp
    rw [javaLoop_lookup_isSome content (javaHeaders content) [] d k hp]
    simp [dlookup]

/-- C2 witness: one Rust library whose section has a row is present in
the output. -/
theorem claim_C2_witness :
    (dlookup
      [("Three.js".toList,
        [BenchmarkResult.mk ("OXC".toList) ("Rust".toList) (mkRat 5 10) (mkRat 762 10)])]
      ("Three.js".toList)).isSome :=
  (claim_C2_amended.2.1 exRustText
      [("Three.js".toList,
        [BenchmarkResult.mk ("OXC".toList) ("Rust".toList) (mkRat 5 10) (mkRat 762 10)])]
      ("Three.js".toList) (by decide)).mpr
    ⟨("Three.js".toList, "\n🥇 OXC (Rust) | 0.5 | 1.00x | 76.2\n".toList),
      by decide, by decide, by decide⟩

/-- C3 counterexample: for the Java report cJava3 the output key is the
raw stripped header name "lodash.js", not its normalization "Lodash". -/
theorem claim_C3_counterexample :
    headersOf cJava3 = [(0, ⟨"lodash.js".toList, "1.0".toList⟩, 31)] ∧
    normalize_library_name (pstrip ("lodash.js".toList)) = "Lodash".toList ∧
    parse_java_text cJava3 =
      some [("lodash.js".toList,
        [BenchmarkResult.mk ("Harmonica".toList) ("Java".toList) (mkRat 1 1) (mkRat 2 1)])] ∧
    dkeys [("lodash.js".toList,
        [BenchmarkResult.mk ("Harmonica".toList) ("Java".toList) (mkRat 1 1) (mkRat 2 1)])] =
      ["lodash.js".toList] ∧
    ("lodash.js".toList : Key) ≠ "Lodash".toList :=
  ⟨by decide, by decide, by decide, by decide, by decide⟩

/-- C3 amended: every key of the JavaScript and Rust outputs is the
normalized stripped name of some header; every key of the Java output
is the stripped but UNNORMALIZED name of some header. -/
theorem claim_C3_amended :
    (∀ content d k, parse_javascript_text content = some d →
      (dlookup d k).isSome →
      ∃ x ∈ headersOf content,
        k = normalize_library_name (pstrip x.2.1.nameRaw)) ∧
    (∀ content d k, parse_rust_text content = some d →
      (dlookup d k).isSome →
      ∃ x ∈ headersOf content,
        k = normalize_library_name (pstrip x.2.1.nameRaw)) ∧
    (∀ content d k, parse_java_text content = some d →
      (dlookup d k).isSome →
      ∃ x ∈ headersOf content, k = pstrip x.2.1.nameRaw) := by
  refine ⟨?_, ?_, ?_⟩
  · intro content d k hp hs
    rw [sectionLoop_lookup_isSome jsLibResults (normSections content) [] d k hp] at hs
    simp only [dlookup, Option.isSome_none, Bool.false_eq_true, false_or] at hs
    obtain ⟨p, hm, hk, _⟩ := hs
    obtain ⟨x, hx, hfst⟩ := normSections_key content p hm
    exact ⟨x, hx, by rw [← hk, hfst]⟩
  · intro content d k hp hs
    rw [sectionLoop_lookup_isSome rustLibResults (normSections content) [] d k hp] at hs
    simp only [dlookup, Option.isSome_none, Bool.false_eq_true, false_or] at hs
    obtain ⟨p, hm, hk, _⟩ := hs
    obtain ⟨x, hx, hfst⟩ := normSections_key content p hm
    exact ⟨x, hx, by rw [← hk, hfst]⟩
  · intro content d k hp hs
    rw [javaLoop_lookup_isSome content (javaHeaders content) [] d k hp] at hs
    simp only [dlookup, Option.isSome_none, Bool.false_eq_true, false_or] at hs
    obtain ⟨p, hm, hk, _⟩ := hs
    obtain ⟨x, hx, hxe⟩ := List.mem_map.mp hm
    refine ⟨x, hx, ?_⟩
    rw [← hk, ← hxe]

/-- C3 witness: the JavaScript output key "Lodash" is the normalization
of the raw header name of the concrete report. -/
theorem claim_C3_witness :
    ∃ x ∈ headersOf exJsText,
      ("Lodash".toList : Key) = normalize_library_name (pstrip x.2.1.nameRaw) :=
  claim_C3_amended.1 exJsText
    [("Lodash".toList,
      [BenchmarkResult.mk ("Meriyah".toList) ("JavaScript".toList)
        (mkRat 15 10) (mkRat 67 10)])]
    ("Lodash".toList) (by decide) (by decide)

/-- C5 counterexample: a text with a "Library: Foo" line and a
well-formed "Size: 1.0 KB" line appearing later but not on the very
next line yields NO header match at any position, and every extractor
returns the empty mapping on it; deleting the intervening line from the
same text restores the match.  This refutes the claim that a size line
appearing later but not immediately still yields a header match. -/
theorem claim_C5_counterexample :
    cNoImm = ("Library: Foo\n".toList) ++ ("Note\n".toList) ++ ("Size: 1.0 KB\n".toList) ∧
    (∀ i, i < cNoImm.length + 1 → headerMatchAt cNoImm i = none) ∧
    headersOf cNoImm = [] ∧
    parse_java_text cNoImm = some [] ∧
    parse_javascript_text cNoImm = some [] ∧
    parse_rust_text cNoImm = some [] ∧
    headerMatchAt (("Library: Foo\n".toList) ++ ("Size: 1.0 KB\n".toList)) 0 =
      some (⟨"Foo".toList, "1.0".toList⟩, 25) :=
  ⟨rfl, by decide, by decide, by decide, by decide, by decide, by decide⟩

/-- C5 amended: a library-header match is exactly a "Library: <name>"
line whose IMMEDIATELY following line starts with "Size: " and a
digits-and-dots run followed by " KB"; a size line appearing later but
not on the very next line yields no match. -/
theorem claim_C5_amended :
    ∀ (s : List Char) (i : Nat) (n sz : List Char) (e : Nat),
      headerMatchAt s i = some (⟨n, sz⟩, e) ↔
        (∃ rest, s.drop i =
          "Library: ".toList ++
            (n ++ ('\n' :: ("Size: ".toList ++ (sz ++ (" KB".toList ++ rest)))))) ∧
        n ≠ [] ∧ '\n' ∉ n ∧ sz ≠ [] ∧ (∀ c ∈ sz, isDD c = true) ∧
        e = i + n.length + sz.length + 19 :=
  headerMatchAt_iff

/-- C5 witness: a well-formed immediate header in the concrete Java
report matches with the expected groups and end position. -/
theorem claim_C5_witness :
    headerMatchAt exJavaText 0 = some (⟨"Foo".toList, "10.0".toList⟩, 26) :=
  (claim_C5_amended exJavaText 0 ("Foo".toList) ("10.0".toList) 26).mpr
    ⟨⟨"\nOur Java Parser | 1.5 | 6.7\n".toList, by decide⟩,
      by decide, by decide, by decide, by decide, by decide⟩

/-- C9: when two distinct headers normalize to the same name in the
JavaScript or Rust extractor and the later section has rows, the output
binds the name only to the later section rows; the earlier section rows
are overwritten, not concatenated. -/
theorem claim_C9 :
    (∀ content d k sec1 sec2 rs2, ∀ pre mid post : List (Key × List Char),
      parse_javascript_text content = some d →
      normSections content = pre ++ (k, sec1) :: (mid ++ (k, sec2) :: post) →
      (∀ p ∈ post, p.1 ≠ k) →
      jsLibResults sec2 = some rs2 → rs2 ≠ [] →
      dlookup d k = some rs2) ∧
    (∀ content d k sec1 sec2 rs2, ∀ pre mid post : List (Key × List Char),
      parse_rust_text content = some d →
      normSections content = pre ++ (k, sec1) :: (mid ++ (k, sec2) :: post) →
      (∀ p ∈ post, p.1 ≠ k) →
      rustLibResults sec2 = some rs2 → rs2 ≠ [] →
      dlookup d k = some rs2) := by
  constructor
  · intro content d k sec1 sec2 rs2 pre mid post hp hsec hpost hlib hne
    rw [parse_javascript_text, hsec,
      show pre ++ (k, sec1) :: (mid ++ (k, sec2) :: post) =
        (pre ++ (k, sec1) :: mid) ++ ((k, sec2) :: post) by simp] at hp
    exact sectionLoop_split_last jsLibResults _ post k sec2 rs2 d hp hpost hlib hne
  · intro content d k sec1 sec2 rs2 pre mid post hp hsec hpost hlib hne
    rw [parse_rust_text, hsec,
      show pre ++ (k, sec1) :: (mid ++ (k, sec2) :: post) =
        (pre ++ (k, sec1) :: mid) ++ ((k, sec2) :: post) by simp] at hp
    exact sectionLoop_split_last rustLibResults _ post k sec2 rs2 d hp hpost hlib hne

set_option maxRecDepth 10000 in
/-- C9 witness: two headers normalizing to "Lodash" leave only the
later section row bound. -/
theorem claim_C9_witness :
    dlookup
      [("Lodash".toList,
        [BenchmarkResult.mk ("B2".toList) ("JavaScript".toList) (mkRat 3 1) (mkRat 4 1)])]
      ("Lodash".toList) =
      some [BenchmarkResult.mk ("B2".toList) ("JavaScript".toList) (mkRat 3 1) (mkRat 4 1)] :=
  claim_C9.1 cDup
    [("Lodash".toList,
      [BenchmarkResult.mk ("B2".toList) ("JavaScript".toList) (mkRat 3 1) (mkRat 4 1)])]
    ("Lodash".toList)
    ("\n🥇 A1 | 1.0 | 1.00x | 2.0 KB/ms\n".toList)
    ("\n🥇 B2 | 3.0 | 1.00x | 4.0 KB/ms\n".toList)
    [BenchmarkResult.mk ("B2".toList) ("JavaScript".toList) (mkRat 3 1) (mkRat 4 1)]
    [] [] []
    (by decide) (by decide) (by decide) (by decide) (by decide)
